import Mathlib

/-!
Verification of the LP-IRL core (single-file Python module).

The state space is the interval [-1, 1] of real numbers; the Python code
works with floats. We embed states, value estimates and weight vectors as
rationals (ℚ): every operation of the code under scrutiny is field
arithmetic plus comparisons, which ℚ models exactly and keeps executable.

Randomness (the uniform noise, the uniform initial states, and the random
policy parameters) is ambient in Python; here every random draw is an
explicit parameter (a value or a stream of values), so each function is a
pure function of its inputs plus the draws it consumes, in the order the
Python code consumes them.

The Gaussian density `scipy.stats.norm.pdf` and the LP backend
`scipy.optimize.linprog` are external library calls: the density is kept
as an abstract function parameter `pdf x loc scale`, and the LP backend is
modelled from its documented contract (see `linprog` below).
-/

namespace LPIRL

/-- Optimal (expert) policy: action 1 if s < 0, else -1. -/
def pi_star (s : ℚ) : ℚ :=
  if s < 0 then 1 else -1

/-- Truncate state s to be within [-1, 1]. -/
def truncate_state (s : ℚ) : ℚ :=
  if s > 1 then 1
  else if s < -1 then -1
  else s

/-- One simulator step: `policy(s) * s + noise`, truncated to [-1, 1].
The noise draw (uniform in [-0.5, 0.5] in the Python code) is passed
explicitly. -/
def step (s : ℚ) (policy : ℚ → ℚ) (noise : ℚ) : ℚ :=
  truncate_state (policy s * s + noise)

/-- The trajectory built by the inner loop of `monte_carlo_sim`, starting
from state `s`, taking `m` further steps; `nf j` is the noise draw consumed
by the j-th step (j counted from 0 within this trajectory). Produces
`m + 1` states. -/
def trajFrom (policy : ℚ → ℚ) (nf : ℕ → ℚ) (s : ℚ) (j : ℕ) : ℕ → List ℚ
  | 0 => [s]
  | m + 1 => s :: trajFrom policy nf (step s policy (nf j)) (j + 1) m

/-- Generate `n_trajectories` trajectories under `policy`. `init k` is the
uniform [-1, 1] draw used as initial state of trajectory k; `nf k j` is the
noise draw of step j of trajectory k. Each trajectory is the initial state
followed by `trajectory_length - 1` simulator steps (ℕ subtraction, like
Python's empty `range(trajectory_length - 1)` when the length is 0). -/
def monte_carlo_sim (policy : ℚ → ℚ) (init : ℕ → ℚ) (nf : ℕ → ℕ → ℚ)
    (n_trajectories trajectory_length : ℕ) : List (List ℚ) :=
  (List.range n_trajectories).map fun k =>
    trajFrom policy (nf k) (init k) 0 (trajectory_length - 1)

/-- Model of `np.linspace a b n`: n evenly spaced points from a to b, endpoints
included (for n = 1, numpy returns [a]). -/
def linspace (a b : ℚ) (n : ℕ) : List ℚ :=
  if n ≤ 1 then (List.range n).map fun _ => a
  else (List.range n).map fun (i : ℕ) => a + (b - a) * (i : ℚ) / ((n : ℚ) - 1)

/-- Value-function estimate of a batch of trajectories: for each of the
`n_basis` Gaussian basis functions (means `linspace (-1) 1 n_basis`, shared
standard deviation 2/22) the discounted sum `Σ_t φ_i(s_t) · discount^t`
along each trajectory, averaged over the batch. `pdf x loc scale` stands
for `scipy.stats.norm.pdf`. The Python code takes T from the first
trajectory and elementwise-multiplies with the discount vector (numpy
requires equal lengths; `zipWith` agrees on equal lengths). An empty batch
gives T = 0 and a zero vector. -/
def calc_value_function_estimate (pdf : ℚ → ℚ → ℚ → ℚ)
    (trajectories : List (List ℚ)) (discount : ℚ) (n_basis : ℕ) : List ℚ :=
  let means := linspace (-1) 1 n_basis
  let sd : ℚ := 2 / 22
  let T : ℕ := match trajectories with
    | [] => 0
    | traj :: _ => traj.length
  let discounts := (List.range T).map fun t => discount ^ t
  means.map fun m =>
    let traj_returns := trajectories.map fun traj =>
      ((traj.map fun s => pdf s m sd).zipWith (· * ·) discounts).sum
    if 0 < traj_returns.length then
      traj_returns.sum / (traj_returns.length : ℚ)
    else 0

/-- Reward `R(s) = Σ_i alpha_i · φ_i(s)` over the same basis set. -/
def reward_function (pdf : ℚ → ℚ → ℚ → ℚ) (s : ℚ) (alpha : List ℚ)
    (n_basis : ℕ) : ℚ :=
  let means := linspace (-1) 1 n_basis
  let sd : ℚ := 2 / 22
  (alpha.zipWith (fun a m => a * pdf s m sd) means).sum

/-- The random policy of `construct_random_policy`, with its two random
draws (shape ∈ {-1, 1} and inflection from `linspace (-1) 1 21`) passed
explicitly: action -shape if s < inflection, else shape. -/
def construct_random_policy (shape inflection : ℚ) : ℚ → ℚ :=
  fun s => if s < inflection then -shape else shape

/-- The reward-greedy policy `pi_updated` derived from a weight vector:
action 1 if the reward exceeds the fixed threshold 0.5, else -1. -/
def pi_updated (pdf : ℚ → ℚ → ℚ → ℚ) (alpha : List ℚ) (n_basis : ℕ) :
    ℚ → ℚ :=
  fun s => if reward_function pdf s alpha n_basis > 1 / 2 then 1 else -1

/-- Componentwise vector sum (`numpy` `+` on equal-length vectors). -/
def vecAdd (a b : List ℚ) : List ℚ := a.zipWith (· + ·) b

/-- Componentwise vector difference (`numpy` `-` on equal-length vectors). -/
def vecSub (a b : List ℚ) : List ℚ := a.zipWith (· - ·) b

/-- The accumulated difference vector of `solve_lp_for_alphas`:
`V* = list[-1]` (the last element), then starting from `np.zeros_like V*`
add `V* - list[j]` for every j except the last. Empty input gives []. -/
def totalDiffOf (vs : List (List ℚ)) : List ℚ :=
  match vs.getLast? with
  | none => []
  | some V_pi_star =>
      vs.dropLast.foldl (fun acc vj => vecAdd acc (vecSub V_pi_star vj))
        (V_pi_star.map fun _ => 0)

/-- The objective coefficients handed to the LP backend: the negated
difference vector (`linprog` minimizes, the code maximizes). -/
def lpCoeffs (vs : List (List ℚ)) : List ℚ :=
  (totalDiffOf vs).map fun d => -d

/-- Modelled from the spec: `scipy.optimize.linprog(c, A_ub=I, b_ub=1,
bounds=(0,1), method=highs)` — minimize `c · x` subject to `0 ≤ x_i ≤ 1`
(the `A_ub = I, b_ub = 1` rows restate the upper bounds). The box is
always feasible, so the backend always reports success and returns an
optimal vertex: `x_i = 1` where `c_i < 0`, else `x_i = 0`. -/
def linprog (c : List ℚ) : Option (List ℚ) :=
  some (c.map fun ci => if ci < 0 then 1 else 0)

/-- The solver `solve_lp_for_alphas`: maximize `total_diff · alpha` over the box
`0 ≤ alpha_i ≤ 1`, via the LP backend `lp` (the scipy call, abstracted).
The Python code reads the expert estimate from `list_of_other_values[-1]`
(raising `IndexError` on an empty list) and never uses the
`value_pi_star` parameter; on backend failure it raises a ValueError. -/
def solve_lp_for_alphas (lp : List ℚ → Option (List ℚ))
    (value_pi_star : List ℚ) (list_of_other_values : List (List ℚ)) :
    Except String (List ℚ) :=
  if list_of_other_values.isEmpty then .error "IndexError"
  else
    match lp (lpCoeffs list_of_other_values) with
    | some x => .ok x
    | none => .error "LP did not find a feasible solution."

/-- The alpha the modelled backend returns on a non-empty value history:
1 where the accumulated difference is positive, else 0. -/
def lpAlphaOf (vs : List (List ℚ)) : List ℚ :=
  (totalDiffOf vs).map fun d => if 0 < d then 1 else 0

/-- Maximum of `|x|` over a vector, as used by the convergence test
`np.max(np.abs(alpha_next - alpha))` (on the non-empty vectors the code
compares, the extra 0 base of the fold is absorbed by |x| ≥ 0). -/
def maxAbs (l : List ℚ) : ℚ := l.foldr (fun x m => max |x| m) 0

/-- The explicit random draws one driver run consumes: the two draws of
`construct_random_policy`, and per iteration i the initial-state draws
`init i k` and noise draws `noiseAt i k j` of its `monte_carlo_sim` call. -/
structure IRLRand where
  shape : ℚ
  inflection : ℚ
  init : ℕ → ℕ → ℚ
  noiseAt : ℕ → ℕ → ℕ → ℚ

/-- The value estimate computed in iteration i of the driver loop: 20
trajectories of 20 steps under the current policy, then
`calc_value_function_estimate`. -/
def iterEstimate (pdf : ℚ → ℚ → ℚ → ℚ) (rand : IRLRand) (discount : ℚ)
    (n_basis : ℕ) (i : ℕ) (pol : ℚ → ℚ) : List ℚ :=
  calc_value_function_estimate pdf
    (monte_carlo_sim pol (rand.init i) (rand.noiseAt i) 20 20)
    discount n_basis

/-- The driver's iteration loop (`for i in range(max_iter)`), with `fuel`
remaining iterations and `i` the 0-indexed iteration counter: estimate the
current policy's value, prepend it to the history, solve the LP
(`solve_lp_for_alphas(value_functions[-1], value_functions)`), stop when
`i ≥ 4` and `max |alpha_next - alpha| < 0.1`, otherwise adopt the new
alpha and its reward-greedy policy. An LP error propagates (no handler). -/
def irlLoop (pdf : ℚ → ℚ → ℚ → ℚ) (lp : List ℚ → Option (List ℚ))
    (rand : IRLRand) (discount : ℚ) (n_basis : ℕ) :
    ℕ → ℕ → List ℚ → (ℚ → ℚ) → List (List ℚ) →
    Except String (List ℚ × List (List ℚ))
  | 0, _, alpha, _, value_functions => .ok (alpha, value_functions)
  | fuel + 1, i, alpha, pol, value_functions =>
    let value_pi_current := iterEstimate pdf rand discount n_basis i pol
    let vfs := value_pi_current :: value_functions
    match solve_lp_for_alphas lp (vfs.getLastD []) vfs with
    | .error e => .error e
    | .ok alpha_next =>
      if 4 ≤ i ∧ maxAbs (vecSub alpha_next alpha) < 1 / 10 then
        .ok (alpha_next, vfs)
      else
        irlLoop pdf lp rand discount n_basis fuel (i + 1) alpha_next
          (pi_updated pdf alpha_next n_basis) vfs

/-- The driver `lp_irl_sample_trajectories`: compute the expert's value estimate from
`data`, seed the history with it, start from the zero alpha and a random
policy, and iterate up to `max_iter` times. Returns the final (alpha,
value history); `print_progress` only prints and is omitted. -/
def lp_irl_sample_trajectories (pdf : ℚ → ℚ → ℚ → ℚ)
    (lp : List ℚ → Option (List ℚ)) (rand : IRLRand)
    (data : List (List ℚ)) (max_iter : ℕ) (discount : ℚ) (n_basis : ℕ) :
    Except String (List ℚ × List (List ℚ)) :=
  let value_pi_star := calc_value_function_estimate pdf data discount n_basis
  irlLoop pdf lp rand discount n_basis max_iter 0
    (List.replicate n_basis 0)
    (construct_random_policy rand.shape rand.inflection)
    [value_pi_star]

/-- The state (alpha, current policy, value history) held at the start of
0-indexed iteration i of a driver run with the modelled backend, obtained
by unfolding the loop body without the stopping test. -/
def irlState (pdf : ℚ → ℚ → ℚ → ℚ) (rand : IRLRand) (discount : ℚ)
    (n_basis : ℕ) (vstar : List ℚ) :
    ℕ → List ℚ × (ℚ → ℚ) × List (List ℚ)
  | 0 => (List.replicate n_basis 0,
          construct_random_policy rand.shape rand.inflection, [vstar])
  | i + 1 =>
    let st := irlState pdf rand discount n_basis vstar i
    let v := iterEstimate pdf rand discount n_basis i st.2.1
    let vfs := v :: st.2.2
    let alpha_next := lpAlphaOf vfs
    (alpha_next, pi_updated pdf alpha_next n_basis, vfs)

/-- The convergence test of 0-indexed iteration i of a driver run with the
modelled backend: `i ≥ 4` and the candidate alpha of iteration i is within
0.1 of the previous alpha in every component. -/
def convTest (pdf : ℚ → ℚ → ℚ → ℚ) (rand : IRLRand) (discount : ℚ)
    (n_basis : ℕ) (vstar : List ℚ) (i : ℕ) : Prop :=
  4 ≤ i ∧
    maxAbs (vecSub (irlState pdf rand discount n_basis vstar (i + 1)).1
      (irlState pdf rand discount n_basis vstar i).1) < 1 / 10

instance (pdf : ℚ → ℚ → ℚ → ℚ) (rand : IRLRand) (discount : ℚ)
    (n_basis : ℕ) (vstar : List ℚ) (i : ℕ) :
    Decidable (convTest pdf rand discount n_basis vstar i) :=
  inferInstanceAs (Decidable (_ ∧ _))

/-! ## Basic lemmas -/

theorem linspace_length (a b : ℚ) (n : ℕ) : (linspace a b n).length = n := by
  unfold linspace
  split_ifs <;> rw [List.length_map, List.length_range]

/-- Dot product of two coefficient vectors (`numpy` `c @ x` on
equal-length vectors). -/
def dot (a b : List ℚ) : ℚ := (a.zipWith (· * ·) b).sum

theorem solve_lp_linprog_eq (v : List ℚ) (vs : List (List ℚ)) (h : vs ≠ []) :
    solve_lp_for_alphas linprog v vs = .ok (lpAlphaOf vs) := by
  obtain ⟨v0, rest, rfl⟩ : ∃ v0 rest, vs = v0 :: rest := by
    cases vs with
    | nil => exact absurd rfl h
    | cons v0 rest => exact ⟨v0, rest, rfl⟩
  simp only [solve_lp_for_alphas, linprog, lpCoeffs, lpAlphaOf,
    List.isEmpty_cons, Bool.false_eq_true, if_false, List.map_map]
  congr 1
  refine List.map_congr_left fun d _ => ?_
  simp [Function.comp, neg_lt_zero]

theorem dot_le_dot_indicator (d : List ℚ) (y : List ℚ)
    (hlen : y.length = d.length) (hbox : ∀ x ∈ y, 0 ≤ x ∧ x ≤ 1) :
    dot d y ≤ dot d (d.map fun t => if 0 < t then 1 else 0) := by
  induction d generalizing y with
  | nil =>
    rw [List.length_nil, List.length_eq_zero] at hlen
    subst hlen
    simp [dot]
  | cons t d ih =>
    cases y with
    | nil => simp at hlen
    | cons x y =>
      have hx := hbox x (List.mem_cons_self x y)
      have htail := ih y (by simpa using hlen)
        (fun z hz => hbox z (List.mem_cons_of_mem x hz))
      have hhead : t * x ≤ t * (if 0 < t then 1 else 0) := by
        split_ifs with ht
        · exact (mul_le_mul_of_nonneg_left hx.2 (le_of_lt ht)).trans
            (by ring_nf; exact le_refl t)
        · push_neg at ht
          calc t * x ≤ 0 := mul_nonpos_of_nonpos_of_nonneg ht hx.1
            _ = t * 0 := by ring
      simpa [dot] using add_le_add hhead htail

theorem trajFrom_length (policy : ℚ → ℚ) (nf : ℕ → ℚ) :
    ∀ (m : ℕ) (s : ℚ) (j : ℕ), (trajFrom policy nf s j m).length = m + 1 := by
  intro m
  induction m with
  | zero => intro s j; rfl
  | succ m ih =>
    intro s j
    show (trajFrom policy nf (step s policy (nf j)) (j + 1) m).length + 1 = _
    rw [ih]

theorem trajFrom_get_zero (policy : ℚ → ℚ) (nf : ℕ → ℚ) (m : ℕ) (s : ℚ)
    (j : ℕ) : (trajFrom policy nf s j m).get? 0 = some s := by
  cases m <;> rfl

theorem trajFrom_get_succ (policy : ℚ → ℚ) (nf : ℕ → ℚ) :
    ∀ (m t j : ℕ) (s : ℚ), t < m →
      (trajFrom policy nf s j m).get? (t + 1) =
        some (step ((trajFrom policy nf s j m).getD t 0) policy
          (nf (j + t))) := by
  intro m
  induction m with
  | zero => intro t j s ht; exact absurd ht (Nat.not_lt_zero t)
  | succ m ih =>
    intro t j s ht
    show (trajFrom policy nf (step s policy (nf j)) (j + 1) m).get? t = _
    cases t with
    | zero =>
      rw [trajFrom_get_zero]
      rfl
    | succ t =>
      rw [ih t (j + 1) (step s policy (nf j)) (Nat.lt_of_succ_lt_succ ht)]
      have : j + 1 + t = j + (t + 1) := by omega
      rw [this]
      rfl

theorem zipWith_discount_sum (f : ℚ → ℚ) :
    ∀ (tr : List ℚ) (g : ℕ → ℚ),
      ((tr.map f).zipWith (· * ·) ((List.range tr.length).map g)).sum =
        ((List.range tr.length).map fun t => g t * f (tr.getD t 0)).sum := by
  intro tr
  induction tr with
  | nil => intro g; rfl
  | cons s tr ih =>
    intro g
    simp only [List.length_cons, List.range_succ_eq_map, List.map_cons,
      List.zipWith_cons_cons, List.sum_cons, List.map_map]
    have hbody : (fun t => g t * f ((s :: tr).getD t 0)) ∘ Nat.succ =
        fun t => (g ∘ Nat.succ) t * f (tr.getD t 0) := by
      funext t
      simp [Function.comp]
    rw [hbody, ih (g ∘ Nat.succ), mul_comm (f s) (g 0)]
    rfl

theorem irlLoop_ok_append (pdf : ℚ → ℚ → ℚ → ℚ)
    (lp : List ℚ → Option (List ℚ)) (rand : IRLRand) (discount : ℚ)
    (n_basis : ℕ) :
    ∀ (fuel i : ℕ) (alpha : List ℚ) (pol : ℚ → ℚ)
      (hist : List (List ℚ)) (a : List ℚ) (h : List (List ℚ)),
      irlLoop pdf lp rand discount n_basis fuel i alpha pol hist = .ok (a, h) →
      ∃ new : List (List ℚ), h = new ++ hist ∧ new.length ≤ fuel := by
  intro fuel
  induction fuel with
  | zero =>
    intro i alpha pol hist a h hok
    injection hok with hok
    injection hok with h1 h2
    subst h2
    exact ⟨[], rfl, Nat.le_refl 0⟩
  | succ fuel ih =>
    intro i alpha pol hist a h hok
    simp only [irlLoop] at hok
    split at hok
    · exact absurd hok (by simp)
    · split at hok
      · injection hok with hok
        injection hok with h1 h2
        subst h2
        exact ⟨[iterEstimate pdf rand discount n_basis i pol], rfl, by simp⟩
      · obtain ⟨new, hnew, hlen⟩ := ih _ _ _ _ _ _ hok
        refine ⟨new ++ [iterEstimate pdf rand discount n_basis i pol], ?_, ?_⟩
        · rw [hnew, List.append_assoc, List.singleton_append]
        · rw [List.length_append, List.length_singleton]
          omega

theorem irlLoop_ok_cases (pdf : ℚ → ℚ → ℚ → ℚ)
    (lp : List ℚ → Option (List ℚ)) (rand : IRLRand) (discount : ℚ)
    (n_basis : ℕ) :
    ∀ (fuel i : ℕ) (alpha : List ℚ) (pol : ℚ → ℚ)
      (hist : List (List ℚ)) (a : List ℚ) (h : List (List ℚ)),
      irlLoop pdf lp rand discount n_basis fuel i alpha pol hist = .ok (a, h) →
      h.length = hist.length + fuel ∨
        ∃ dlt, 4 ≤ i + dlt ∧ dlt < fuel ∧
          h.length = hist.length + dlt + 1 := by
  intro fuel
  induction fuel with
  | zero =>
    intro i alpha pol hist a h hok
    injection hok with hok
    injection hok with h1 h2
    subst h2
    exact Or.inl (by omega)
  | succ fuel ih =>
    intro i alpha pol hist a h hok
    simp only [irlLoop] at hok
    split at hok
    · exact absurd hok (by simp)
    · split at hok
      · rename_i hc
        injection hok with hok
        injection hok with h1 h2
        subst h2
        exact Or.inr ⟨0, by omega, by omega, by rw [List.length_cons]⟩
      · rcases ih _ _ _ _ _ _ hok with h1 | ⟨dlt, h4, hf, hl⟩
        · left
          rw [List.length_cons] at h1
          omega
        · right
          rw [List.length_cons] at hl
          exact ⟨dlt + 1, by omega, by omega, by omega⟩

theorem irlLoop_succ_linprog (pdf : ℚ → ℚ → ℚ → ℚ) (rand : IRLRand)
    (discount : ℚ) (n_basis fuel i : ℕ) (alpha : List ℚ) (pol : ℚ → ℚ)
    (hist : List (List ℚ)) :
    irlLoop pdf linprog rand discount n_basis (fuel + 1) i alpha pol hist =
      if 4 ≤ i ∧ maxAbs (vecSub
          (lpAlphaOf (iterEstimate pdf rand discount n_basis i pol :: hist))
          alpha) < 1 / 10 then
        .ok (lpAlphaOf (iterEstimate pdf rand discount n_basis i pol :: hist),
          iterEstimate pdf rand discount n_basis i pol :: hist)
      else
        irlLoop pdf linprog rand discount n_basis fuel (i + 1)
          (lpAlphaOf (iterEstimate pdf rand discount n_basis i pol :: hist))
          (pi_updated pdf
            (lpAlphaOf (iterEstimate pdf rand discount n_basis i pol :: hist))
            n_basis)
          (iterEstimate pdf rand discount n_basis i pol :: hist) := by
  simp only [irlLoop]
  rw [solve_lp_linprog_eq _ _ (List.cons_ne_nil _ _)]

theorem irlLoop_first_hit (pdf : ℚ → ℚ → ℚ → ℚ) (rand : IRLRand)
    (discount : ℚ) (n_basis : ℕ) (vstar : List ℚ) (K : ℕ)
    (hK : convTest pdf rand discount n_basis vstar K) :
    ∀ (fuel i : ℕ), i ≤ K → K < i + fuel →
      (∀ j, i ≤ j → j < K → ¬ convTest pdf rand discount n_basis vstar j) →
      irlLoop pdf linprog rand discount n_basis fuel i
          (irlState pdf rand discount n_basis vstar i).1
          (irlState pdf rand discount n_basis vstar i).2.1
          (irlState pdf rand discount n_basis vstar i).2.2 =
        .ok ((irlState pdf rand discount n_basis vstar (K + 1)).1,
          (irlState pdf rand discount n_basis vstar (K + 1)).2.2) := by
  intro fuel
  induction fuel with
  | zero =>
    intro i h1 h2 _
    exact absurd h2 (by omega)
  | succ fuel ih =>
    intro i hiK hKf hno
    rw [irlLoop_succ_linprog]
    rcases eq_or_lt_of_le hiK with rfl | hlt
    · have hcond : 4 ≤ i ∧ maxAbs (vecSub
          (lpAlphaOf (iterEstimate pdf rand discount n_basis i
            (irlState pdf rand discount n_basis vstar i).2.1 ::
            (irlState pdf rand discount n_basis vstar i).2.2))
          (irlState pdf rand discount n_basis vstar i).1) < 1 / 10 := hK
      rw [if_pos hcond]
      rfl
    · have hnc : ¬ (4 ≤ i ∧ maxAbs (vecSub
          (lpAlphaOf (iterEstimate pdf rand discount n_basis i
            (irlState pdf rand discount n_basis vstar i).2.1 ::
            (irlState pdf rand discount n_basis vstar i).2.2))
          (irlState pdf rand discount n_basis vstar i).1) < 1 / 10) :=
        hno i (le_refl i) hlt
      rw [if_neg hnc]
      exact ih (i + 1) hlt (by omega) (fun j hj1 hj2 => hno j (by omega) hj2)

theorem irlLoop_no_hit (pdf : ℚ → ℚ → ℚ → ℚ) (rand : IRLRand)
    (discount : ℚ) (n_basis : ℕ) (vstar : List ℚ) :
    ∀ (fuel i : ℕ),
      (∀ j, i ≤ j → j < i + fuel →
        ¬ convTest pdf rand discount n_basis vstar j) →
      irlLoop pdf linprog rand discount n_basis fuel i
          (irlState pdf rand discount n_basis vstar i).1
          (irlState pdf rand discount n_basis vstar i).2.1
          (irlState pdf rand discount n_basis vstar i).2.2 =
        .ok ((irlState pdf rand discount n_basis vstar (i + fuel)).1,
          (irlState pdf rand discount n_basis vstar (i + fuel)).2.2) := by
  intro fuel
  induction fuel with
  | zero => intro i _; rfl
  | succ fuel ih =>
    intro i hno
    rw [irlLoop_succ_linprog]
    have hnc : ¬ (4 ≤ i ∧ maxAbs (vecSub
        (lpAlphaOf (iterEstimate pdf rand discount n_basis i
          (irlState pdf rand discount n_basis vstar i).2.1 ::
          (irlState pdf rand discount n_basis vstar i).2.2))
        (irlState pdf rand discount n_basis vstar i).1) < 1 / 10) :=
      hno i (le_refl i) (by omega)
    rw [if_neg hnc]
    have heq : i + (fuel + 1) = (i + 1) + fuel := by omega
    rw [heq]
    exact ih (i + 1) (fun j hj1 hj2 => hno j (by omega) (by omega))

theorem irlState_hist_length (pdf : ℚ → ℚ → ℚ → ℚ) (rand : IRLRand)
    (discount : ℚ) (n_basis : ℕ) (vstar : List ℚ) :
    ∀ i : ℕ,
      (irlState pdf rand discount n_basis vstar i).2.2.length = i + 1 := by
  intro i
  induction i with
  | zero => rfl
  | succ i ih =>
    show (iterEstimate pdf rand discount n_basis i
        (irlState pdf rand discount n_basis vstar i).2.1 ::
        (irlState pdf rand discount n_basis vstar i).2.2).length = i + 2
    rw [List.length_cons, ih]

theorem irlState_hist_getLast (pdf : ℚ → ℚ → ℚ → ℚ) (rand : IRLRand)
    (discount : ℚ) (n_basis : ℕ) (vstar : List ℚ) :
    ∀ i : ℕ,
      (irlState pdf rand discount n_basis vstar i).2.2.getLast? =
        some vstar := by
  intro i
  induction i with
  | zero => rfl
  | succ i ih =>
    obtain ⟨p, prest, hp⟩ : ∃ p prest,
        (irlState pdf rand discount n_basis vstar i).2.2 = p :: prest := by
      cases hcase : (irlState pdf rand discount n_basis vstar i).2.2 with
      | nil =>
        have := irlState_hist_length pdf rand discount n_basis vstar i
        rw [hcase] at this
        exact absurd this (by simp)
      | cons p prest => exact ⟨p, prest, rfl⟩
    show (iterEstimate pdf rand discount n_basis i
        (irlState pdf rand discount n_basis vstar i).2.1 ::
        (irlState pdf rand discount n_basis vstar i).2.2).getLast? =
      some vstar
    rw [hp, List.getLast?_cons_cons, ← hp, ih]

theorem zipWith_zero_sum :
    ∀ (l ds : List ℚ),
      (List.zipWith (· * ·) (l.map fun _ => (0 : ℚ)) ds).sum = 0 := by
  intro l
  induction l with
  | nil => intro ds; rfl
  | cons s l ih =>
    intro ds
    cases ds with
    | nil => rfl
    | cons d ds =>
      rw [List.map_cons, List.zipWith_cons_cons, List.sum_cons, ih ds]
      ring

theorem calc_zero_pdf (trajs : List (List ℚ)) (d : ℚ) (n : ℕ) :
    calc_value_function_estimate (fun _ _ _ => 0) trajs d n =
      List.replicate n 0 := by
  rw [List.eq_replicate]
  constructor
  · simp only [calc_value_function_estimate]
    rw [List.length_map, linspace_length]
  · intro b hb
    simp only [calc_value_function_estimate] at hb
    obtain ⟨m, _, rfl⟩ := List.mem_map.mp hb
    have hz : ∀ x ∈ trajs.map fun traj =>
        (List.zipWith (· * ·) (traj.map fun _ => (0 : ℚ))
          ((List.range (match trajs with
            | [] => 0
            | traj :: _ => traj.length)).map fun t => d ^ t)).sum, x = 0 := by
      intro x hx
      obtain ⟨traj, _, rfl⟩ := List.mem_map.mp hx
      exact zipWith_zero_sum traj _
    rw [List.sum_eq_zero hz]
    split_ifs <;> simp

theorem lpAlphaOf_replicate_zero (k : ℕ) :
    lpAlphaOf (List.replicate (k + 1) [(0 : ℚ)]) = [(0 : ℚ)] := by
  have hfold : ∀ (j : ℕ),
      List.foldl (fun acc vj => vecAdd acc (vecSub [(0 : ℚ)] vj))
        [(0 : ℚ)] (List.replicate j [(0 : ℚ)]) = [(0 : ℚ)] := by
    intro j
    induction j with
    | zero => rfl
    | succ j ih =>
      rw [List.replicate_succ, List.foldl_cons,
        show vecAdd [(0 : ℚ)] (vecSub [(0 : ℚ)] [(0 : ℚ)]) = [(0 : ℚ)] by
          norm_num [vecAdd, vecSub]]
      exact ih
  rw [lpAlphaOf, totalDiffOf, List.getLast?_replicate]
  rw [if_neg (by omega : ¬ k + 1 = 0)]
  rw [List.dropLast_replicate]
  simp only [Nat.add_sub_cancel, List.map_cons, List.map_nil]
  rw [hfold k]
  norm_num

theorem irlState_zero_pdf (rand : IRLRand) (d : ℚ) :
    ∀ i : ℕ,
      (irlState (fun _ _ _ => 0) rand d 1 [(0 : ℚ)] i).1 = [(0 : ℚ)] ∧
      (irlState (fun _ _ _ => 0) rand d 1 [(0 : ℚ)] i).2.2 =
        List.replicate (i + 1) [(0 : ℚ)] := by
  intro i
  induction i with
  | zero => exact ⟨rfl, rfl⟩
  | succ i ih =>
    obtain ⟨ih1, ih2⟩ := ih
    have hv : iterEstimate (fun _ _ _ => 0) rand d 1 i
        (irlState (fun _ _ _ => 0) rand d 1 [(0 : ℚ)] i).2.1 = [(0 : ℚ)] :=
      (calc_zero_pdf _ d 1).trans rfl
    constructor
    · show lpAlphaOf (iterEstimate (fun _ _ _ => 0) rand d 1 i
          (irlState (fun _ _ _ => 0) rand d 1 [(0 : ℚ)] i).2.1 ::
          (irlState (fun _ _ _ => 0) rand d 1 [(0 : ℚ)] i).2.2) = [(0 : ℚ)]
      rw [hv, ih2, ← List.replicate_succ]
      exact lpAlphaOf_replicate_zero (i + 1)
    · show (iterEstimate (fun _ _ _ => 0) rand d 1 i
          (irlState (fun _ _ _ => 0) rand d 1 [(0 : ℚ)] i).2.1 ::
          (irlState (fun _ _ _ => 0) rand d 1 [(0 : ℚ)] i).2.2) =
        List.replicate (i + 2) [(0 : ℚ)]
      rw [hv, ih2, ← List.replicate_succ]

/-! ## Claim theorems -/

/-- Claim C6: the simulator step always lands in [-1, 1]: a pre-clamp value
above 1 becomes exactly 1, below -1 becomes exactly -1, and otherwise it
is returned unchanged. -/
theorem step_clamps (s ν : ℚ) (policy : ℚ → ℚ) :
    (-1 ≤ step s policy ν ∧ step s policy ν ≤ 1) ∧
    (1 < policy s * s + ν → step s policy ν = 1) ∧
    (policy s * s + ν < -1 → step s policy ν = -1) ∧
    (-1 ≤ policy s * s + ν → policy s * s + ν ≤ 1 →
      step s policy ν = policy s * s + ν) := by
  unfold step truncate_state
  split_ifs with h1 h2
  · exact ⟨⟨by norm_num, le_refl _⟩, fun _ => rfl, fun h => by linarith,
      fun _ h => by linarith⟩
  · exact ⟨⟨le_refl _, by norm_num⟩, fun h => by linarith, fun _ => rfl,
      fun h _ => by linarith⟩
  · exact ⟨⟨by linarith, by linarith⟩, fun h => by linarith,
      fun h => by linarith, fun _ _ => rfl⟩

/-- Witness for C6 at s = 0, noise 3/4, the expert policy (pre-clamp value
3/4 stays unchanged and lies in [-1, 1]). -/
theorem step_clamps_witness :
    (-1 ≤ step 0 pi_star (3 / 4) ∧ step 0 pi_star (3 / 4) ≤ 1) ∧
    step 0 pi_star (3 / 4) = pi_star 0 * 0 + 3 / 4 :=
  ⟨(step_clamps 0 (3 / 4) pi_star).1,
    (step_clamps 0 (3 / 4) pi_star).2.2.2 (by norm_num [pi_star])
      (by norm_num [pi_star])⟩

/-- Claim C9: the value estimator maps the empty trajectory batch to the
all-zero vector of length n_basis (no failure). -/
theorem calc_value_empty_batch (pdf : ℚ → ℚ → ℚ → ℚ) (discount : ℚ)
    (n_basis : ℕ) :
    calc_value_function_estimate pdf [] discount n_basis =
      List.replicate n_basis 0 := by
  unfold calc_value_function_estimate
  simpa using linspace_length (-1) 1 n_basis

/-- Claim C1: on every non-empty value history (expert estimate last, at least
one candidate before it), `solve_lp_for_alphas` returns an alpha that
maximizes `total_diff · alpha` over the box `0 ≤ alpha_i ≤ 1`; and on the
n_basis = 3 history with expert estimate [3, 2, 1] and one candidate
[1, 1, 1] it returns [1, 1, 0], so alpha_0 = 1 and alpha_1 = 1 (the
returned alpha_2 = 0 lies in [0, 1]). -/
theorem solve_lp_maximizes :
    (∀ (vstar : List ℚ) (vs : List (List ℚ)) (a : List ℚ), vs ≠ [] →
      solve_lp_for_alphas linprog vstar vs = .ok a →
      ∀ y : List ℚ, y.length = (totalDiffOf vs).length →
        (∀ x ∈ y, 0 ≤ x ∧ x ≤ 1) →
        dot (totalDiffOf vs) y ≤ dot (totalDiffOf vs) a) ∧
    solve_lp_for_alphas linprog [3, 2, 1] [[1, 1, 1], [3, 2, 1]] =
      .ok [1, 1, 0] := by
  constructor
  · intro vstar vs a hne hok y hlen hbox
    rw [solve_lp_linprog_eq vstar vs hne] at hok
    injection hok with hok
    subst hok
    exact dot_le_dot_indicator (totalDiffOf vs) y hlen hbox
  · rw [solve_lp_linprog_eq [3, 2, 1] [[1, 1, 1], [3, 2, 1]] (by simp)]
    have h : lpAlphaOf [[1, 1, 1], [3, 2, 1]] = [1, 1, 0] := by
      norm_num [lpAlphaOf, totalDiffOf, vecAdd, vecSub]
    rw [h]

/-- Witness for C1: on the n_basis = 3 history of the claim, the box
vector [1, 0, 1] scores no better than the returned alpha [1, 1, 0]. -/
theorem solve_lp_maximizes_witness :
    dot (totalDiffOf [[1, 1, 1], [3, 2, 1]]) [1, 0, 1] ≤
      dot (totalDiffOf [[1, 1, 1], [3, 2, 1]]) [1, 1, 0] :=
  solve_lp_maximizes.1 [3, 2, 1] [[1, 1, 1], [3, 2, 1]] [1, 1, 0]
    (by decide) solve_lp_maximizes.2 [1, 0, 1] (by decide) (by decide)

/-- Claim C5: whenever `solve_lp_for_alphas` succeeds, every component of the
returned alpha lies in the closed interval [0, 1]. -/
theorem solve_lp_alpha_in_unit_box (vstar : List ℚ) (vs : List (List ℚ))
    (a : List ℚ) (hok : solve_lp_for_alphas linprog vstar vs = .ok a) :
    ∀ x ∈ a, 0 ≤ x ∧ x ≤ 1 := by
  cases vs with
  | nil => exact absurd hok (by simp [solve_lp_for_alphas])
  | cons v0 rest =>
    rw [solve_lp_linprog_eq vstar (v0 :: rest) (by simp)] at hok
    injection hok with hok
    subst hok
    intro x hx
    obtain ⟨d, _, rfl⟩ := List.mem_map.mp hx
    split_ifs <;> norm_num

/-- Witness for C5: on the history of the concrete scenario the first
returned component lies in [0, 1]. -/
theorem solve_lp_alpha_in_unit_box_witness : (0 : ℚ) ≤ 1 ∧ (1 : ℚ) ≤ 1 :=
  solve_lp_alpha_in_unit_box [3, 2, 1] [[1, 1, 1], [3, 2, 1]] [1, 1, 0]
    (by rw [solve_lp_linprog_eq [3, 2, 1] [[1, 1, 1], [3, 2, 1]] (by simp),
          show lpAlphaOf [[1, 1, 1], [3, 2, 1]] = [1, 1, 0] from by
            norm_num [lpAlphaOf, totalDiffOf, vecAdd, vecSub]])
    1 (by decide)

/-- Claim C8: `solve_lp_for_alphas` returns a weight vector exactly when the LP
backend returns a solution; when the backend reports failure it fails with
the infeasible-LP error instead of returning any default alpha, and the
driver propagates that error (no handler, no stale alpha). -/
theorem solve_lp_error_propagation :
    (∀ (lp : List ℚ → Option (List ℚ)) (vstar : List ℚ)
        (vs : List (List ℚ)), vs ≠ [] →
      (∀ x, lp (lpCoeffs vs) = some x →
        solve_lp_for_alphas lp vstar vs = .ok x) ∧
      (∀ a, solve_lp_for_alphas lp vstar vs = .ok a →
        lp (lpCoeffs vs) = some a) ∧
      (lp (lpCoeffs vs) = none →
        solve_lp_for_alphas lp vstar vs =
          .error "LP did not find a feasible solution.")) ∧
    (∀ (pdf : ℚ → ℚ → ℚ → ℚ) (rand : IRLRand) (data : List (List ℚ))
        (discount : ℚ) (n_basis max_iter : ℕ)
        (lp : List ℚ → Option (List ℚ)), 1 ≤ max_iter →
      (∀ c, lp c = none) →
      lp_irl_sample_trajectories pdf lp rand data max_iter discount n_basis =
        .error "LP did not find a feasible solution.") := by
  constructor
  · intro lp vstar vs hne
    obtain ⟨v0, rest, rfl⟩ : ∃ v0 rest, vs = v0 :: rest := by
      cases vs with
      | nil => exact absurd rfl hne
      | cons v0 rest => exact ⟨v0, rest, rfl⟩
    refine ⟨fun x hx => ?_, fun a ha => ?_, fun hnone => ?_⟩
    · simp [solve_lp_for_alphas, hx]
    · simp only [solve_lp_for_alphas, List.isEmpty_cons, Bool.false_eq_true,
        if_false] at ha
      cases hlp : lp (lpCoeffs (v0 :: rest)) with
      | none => rw [hlp] at ha; exact absurd ha (by simp)
      | some x => rw [hlp] at ha; injection ha with ha; rw [ha]
    · simp [solve_lp_for_alphas, hnone]
  · intro pdf rand data discount n_basis max_iter lp hmax hfail
    obtain ⟨m, rfl⟩ : ∃ m, max_iter = m + 1 :=
      ⟨max_iter - 1, (Nat.succ_pred_eq_of_pos hmax).symm⟩
    simp [lp_irl_sample_trajectories, irlLoop, solve_lp_for_alphas, hfail]

/-- Witness for C8: with an always-failing backend, a one-iteration driver
run surfaces the infeasible-LP error. -/
theorem solve_lp_error_propagation_witness :
    lp_irl_sample_trajectories (fun _ _ _ => 0) (fun _ => none)
        ⟨0, 0, fun _ _ => 0, fun _ _ _ => 0⟩ [[0]] 1 (9 / 10) 1 =
      .error "LP did not find a feasible solution." :=
  solve_lp_error_propagation.2 (fun _ _ _ => 0) ⟨0, 0, fun _ _ => 0, fun _ _ _ => 0⟩
    [[0]] (9 / 10) 1 1 (fun _ => none) (le_refl 1) (fun _ => rfl)

/-- Claim C2: the driver's convergence test fires only from the 5th 1-indexed
iteration on: a successful run that stopped before exhausting `max_iter`
ran at least 5 iterations (returned history of at least 6 estimates); and
with the modelled backend, if the test `max |alpha_next - alpha| < 0.1`
first holds at 0-indexed iteration K (so 1-indexed iteration K + 1 ≥ 5),
even when earlier consecutive alphas also differed by less than 0.1, the
driver halts exactly there, returning that iteration's candidate alpha and
accumulated value history. -/
theorem driver_convergence_timing :
    (∀ (pdf : ℚ → ℚ → ℚ → ℚ) (lp : List ℚ → Option (List ℚ))
        (rand : IRLRand) (data : List (List ℚ)) (discount : ℚ)
        (n_basis max_iter : ℕ) (a : List ℚ) (h : List (List ℚ)),
      lp_irl_sample_trajectories pdf lp rand data max_iter discount n_basis =
        .ok (a, h) →
      h.length ≤ max_iter → 6 ≤ h.length) ∧
    (∀ (pdf : ℚ → ℚ → ℚ → ℚ) (rand : IRLRand) (data : List (List ℚ))
        (discount : ℚ) (n_basis max_iter K : ℕ),
      K < max_iter →
      (∀ j, j < K → ¬ convTest pdf rand discount n_basis
        (calc_value_function_estimate pdf data discount n_basis) j) →
      convTest pdf rand discount n_basis
        (calc_value_function_estimate pdf data discount n_basis) K →
      lp_irl_sample_trajectories pdf linprog rand data max_iter discount
          n_basis =
        .ok ((irlState pdf rand discount n_basis
            (calc_value_function_estimate pdf data discount n_basis)
            (K + 1)).1,
          (irlState pdf rand discount n_basis
            (calc_value_function_estimate pdf data discount n_basis)
            (K + 1)).2.2)) := by
  constructor
  · intro pdf lp rand data discount n_basis max_iter a h hok hle
    simp only [lp_irl_sample_trajectories] at hok
    rcases irlLoop_ok_cases pdf lp rand discount n_basis max_iter 0 _ _ _
        a h hok with h1 | ⟨dlt, h4, hf, hl⟩
    · rw [List.length_singleton] at h1
      omega
    · rw [List.length_singleton] at hl
      omega
  · intro pdf rand data discount n_basis max_iter K hKm hno hK
    simp only [lp_irl_sample_trajectories]
    exact irlLoop_first_hit pdf rand discount n_basis _ K hK max_iter 0
      (Nat.zero_le K) (by omega) (fun j _ hj => hno j hj)

/-- Witness for C2: constant-zero density, one basis function, all-zero
random draws — consecutive candidate alphas coincide from the start, yet
the run of 5 iterations halts exactly at 1-indexed iteration 5 with the
6-element value history. -/
theorem driver_convergence_timing_witness :
    lp_irl_sample_trajectories (fun _ _ _ => 0) linprog
        ⟨0, 0, fun _ _ => 0, fun _ _ _ => 0⟩ [[0]] 5 (9 / 10) 1 =
      .ok ([(0 : ℚ)], List.replicate 6 [(0 : ℚ)]) := by
  have hcalc : calc_value_function_estimate (fun _ _ _ => 0) [[0]]
      (9 / 10) 1 = [(0 : ℚ)] := (calc_zero_pdf [[0]] (9 / 10) 1).trans rfl
  have hst := irlState_zero_pdf ⟨0, 0, fun _ _ => 0, fun _ _ _ => 0⟩ (9 / 10)
  refine (driver_convergence_timing.2 (fun _ _ _ => 0)
      ⟨0, 0, fun _ _ => 0, fun _ _ _ => 0⟩ [[0]] (9 / 10) 1 5 4
      (by omega) ?_ ?_).trans ?_
  · intro j hj hc
    exact absurd hc.1 (by omega)
  · rw [hcalc]
    refine ⟨le_refl 4, ?_⟩
    rw [(hst 5).1, (hst 4).1]
    norm_num [vecSub, maxAbs]
  · rw [hcalc, (hst 5).1, (hst 5).2]

/-- Claim C4: the Value History invariant, at every point of a driver run.
Part 1: in the iteration-state sequence of a run seeded with the expert
estimate `vstar`, the history after i iterations holds exactly i + 1
estimates, its last element is still `vstar` at every i, and iteration i
prepends exactly one new estimate — the one computed from the current
policy's fresh batch — onto the previous history. Part 2: every run with
the modelled backend returns precisely the alpha and history of the state
after k executed iterations, for some k ≤ max_iter, with the seed being
the expert estimate computed once from `data` during initialization — so
the returned history is the full accumulated sequence, never reset.
Part 3: for every backend, a successful run's history is k prepended
candidate estimates followed by the expert estimate. -/
theorem driver_history_invariant :
    (∀ (pdf : ℚ → ℚ → ℚ → ℚ) (rand : IRLRand) (discount : ℚ)
        (n_basis : ℕ) (vstar : List ℚ) (i : ℕ),
      (irlState pdf rand discount n_basis vstar i).2.2.length = i + 1 ∧
      (irlState pdf rand discount n_basis vstar i).2.2.getLast? =
        some vstar ∧
      (irlState pdf rand discount n_basis vstar (i + 1)).2.2 =
        iterEstimate pdf rand discount n_basis i
            (irlState pdf rand discount n_basis vstar i).2.1 ::
          (irlState pdf rand discount n_basis vstar i).2.2) ∧
    (∀ (pdf : ℚ → ℚ → ℚ → ℚ) (rand : IRLRand) (data : List (List ℚ))
        (discount : ℚ) (n_basis max_iter : ℕ),
      ∃ k, k ≤ max_iter ∧
        lp_irl_sample_trajectories pdf linprog rand data max_iter discount
            n_basis =
          .ok ((irlState pdf rand discount n_basis
              (calc_value_function_estimate pdf data discount n_basis) k).1,
            (irlState pdf rand discount n_basis
              (calc_value_function_estimate pdf data discount n_basis)
              k).2.2)) ∧
    (∀ (pdf : ℚ → ℚ → ℚ → ℚ) (lp : List ℚ → Option (List ℚ))
        (rand : IRLRand) (data : List (List ℚ)) (max_iter : ℕ)
        (discount : ℚ) (n_basis : ℕ) (a : List ℚ) (h : List (List ℚ)),
      lp_irl_sample_trajectories pdf lp rand data max_iter discount
          n_basis = .ok (a, h) →
      ∃ k ≤ max_iter, ∃ cands : List (List ℚ), cands.length = k ∧
        h = cands ++
          [calc_value_function_estimate pdf data discount n_basis]) := by
  refine ⟨?_, ?_, ?_⟩
  · intro pdf rand discount n_basis vstar i
    exact ⟨irlState_hist_length pdf rand discount n_basis vstar i,
      irlState_hist_getLast pdf rand discount n_basis vstar i, rfl⟩
  · intro pdf rand data discount n_basis max_iter
    by_cases hex : ∃ j, j < max_iter ∧ convTest pdf rand discount n_basis
        (calc_value_function_estimate pdf data discount n_basis) j
    · obtain ⟨j0, hj0, hcj0⟩ := hex
      have hex2 : ∃ j, convTest pdf rand discount n_basis
          (calc_value_function_estimate pdf data discount n_basis) j :=
        ⟨j0, hcj0⟩
      have hKspec := Nat.find_spec hex2
      have hKmin : ∀ j, j < Nat.find hex2 →
          ¬ convTest pdf rand discount n_basis
            (calc_value_function_estimate pdf data discount n_basis) j :=
        fun j hj => Nat.find_min hex2 hj
      have hKlt : Nat.find hex2 < max_iter :=
        lt_of_le_of_lt (Nat.find_min' hex2 hcj0) hj0
      refine ⟨Nat.find hex2 + 1, by omega, ?_⟩
      simp only [lp_irl_sample_trajectories]
      exact irlLoop_first_hit pdf rand discount n_basis _ (Nat.find hex2)
        hKspec max_iter 0 (Nat.zero_le _) (by omega)
        (fun j _ hj => hKmin j hj)
    · push_neg at hex
      refine ⟨max_iter, le_refl max_iter, ?_⟩
      have h := irlLoop_no_hit pdf rand discount n_basis
        (calc_value_function_estimate pdf data discount n_basis) max_iter 0
        (fun j _ hj => hex j (by omega))
      rw [Nat.zero_add] at h
      simp only [lp_irl_sample_trajectories]
      exact h
  · intro pdf lp rand data max_iter discount n_basis a h hok
    simp only [lp_irl_sample_trajectories] at hok
    obtain ⟨new, hnew, hlen⟩ := irlLoop_ok_append pdf lp rand discount
      n_basis max_iter 0 _ _ _ a h hok
    exact ⟨new.length, hlen, new, rfl, hnew⟩

/-- Witness for C4: a real 5-iteration run (constant-zero density, one
basis function, all-zero draws) converges at 1-indexed iteration 5;
applying the theorem to it decomposes the returned 6-element history into
5 prepended candidate estimates followed by the expert estimate. -/
theorem driver_history_invariant_witness :
    ∃ k ≤ 5, ∃ cands : List (List ℚ), cands.length = k ∧
      List.replicate 6 [(0 : ℚ)] = cands ++
        [calc_value_function_estimate (fun _ _ _ => 0) [[0]] (9 / 10) 1] := by
  have hcalc : calc_value_function_estimate (fun _ _ _ => 0) [[0]]
      (9 / 10) 1 = [(0 : ℚ)] := (calc_zero_pdf [[0]] (9 / 10) 1).trans rfl
  have hst := irlState_zero_pdf ⟨0, 0, fun _ _ => 0, fun _ _ _ => 0⟩ (9 / 10)
  have hK4 : convTest (fun _ _ _ => 0) ⟨0, 0, fun _ _ => 0, fun _ _ _ => 0⟩
      (9 / 10) 1 (calc_value_function_estimate (fun _ _ _ => 0) [[0]]
        (9 / 10) 1) 4 := by
    rw [hcalc]
    refine ⟨le_refl 4, ?_⟩
    rw [(hst 5).1, (hst 4).1]
    norm_num [vecSub, maxAbs]
  have hrun : lp_irl_sample_trajectories (fun _ _ _ => 0) linprog
      ⟨0, 0, fun _ _ => 0, fun _ _ _ => 0⟩ [[0]] 5 (9 / 10) 1 =
      .ok ([(0 : ℚ)], List.replicate 6 [(0 : ℚ)]) := by
    have h : lp_irl_sample_trajectories (fun _ _ _ => 0) linprog
        ⟨0, 0, fun _ _ => 0, fun _ _ _ => 0⟩ [[0]] 5 (9 / 10) 1 =
        .ok ((irlState (fun _ _ _ => 0) ⟨0, 0, fun _ _ => 0, fun _ _ _ => 0⟩
            (9 / 10) 1 (calc_value_function_estimate (fun _ _ _ => 0) [[0]]
              (9 / 10) 1) 5).1,
          (irlState (fun _ _ _ => 0) ⟨0, 0, fun _ _ => 0, fun _ _ _ => 0⟩
            (9 / 10) 1 (calc_value_function_estimate (fun _ _ _ => 0) [[0]]
              (9 / 10) 1) 5).2.2) := by
      simp only [lp_irl_sample_trajectories]
      exact irlLoop_first_hit (fun _ _ _ => 0)
        ⟨0, 0, fun _ _ => 0, fun _ _ _ => 0⟩ (9 / 10) 1 _ 4 hK4 5 0
        (Nat.zero_le 4) (by omega) (fun j _ hj hc => absurd hc.1 (by omega))
    rw [hcalc, (hst 5).1, (hst 5).2] at h
    exact h
  obtain ⟨k, hk, cands, hlen, hdecomp⟩ := driver_history_invariant.2.2
    (fun _ _ _ => 0) linprog ⟨0, 0, fun _ _ => 0, fun _ _ _ => 0⟩ [[0]] 5
    (9 / 10) 1 [(0 : ℚ)] (List.replicate 6 [(0 : ℚ)]) hrun
  exact ⟨k, hk, cands, hlen, hdecomp⟩

/-- Claim C3: on a non-empty batch of trajectories of common length T, component
i of the value estimate is the average over the batch of
`Σ_{t < T} discount^t · φ(s_t)`, where φ is the basis density with mean
μ_i — the i-th of the n_basis evenly spaced points over [-1, 1] (first
point -1, last point 1, constant spacing 2/(n_basis - 1)) — and standard
deviation 2/22. -/
theorem calc_value_components (pdf : ℚ → ℚ → ℚ → ℚ)
    (trajectories : List (List ℚ)) (discount : ℚ) (n_basis T : ℕ)
    (hne : trajectories ≠ []) (hT : ∀ tr ∈ trajectories, tr.length = T) :
    (∀ i m, (linspace (-1) 1 n_basis).get? i = some m →
      (calc_value_function_estimate pdf trajectories discount n_basis).get? i =
        some ((trajectories.map fun tr =>
            ((List.range T).map fun t =>
              discount ^ t * pdf (tr.getD t 0) m (2 / 22)).sum).sum /
          (trajectories.length : ℚ))) ∧
    (2 ≤ n_basis →
      (linspace (-1) 1 n_basis).get? 0 = some (-1) ∧
      (linspace (-1) 1 n_basis).get? (n_basis - 1) = some 1 ∧
      ∀ j x y, (linspace (-1) 1 n_basis).get? j = some x →
        (linspace (-1) 1 n_basis).get? (j + 1) = some y →
        y - x = 2 / ((n_basis : ℚ) - 1)) := by
  constructor
  · intro i m hm
    obtain ⟨tr0, rest, rfl⟩ : ∃ a l, trajectories = a :: l := by
      cases trajectories with
      | nil => exact absurd rfl hne
      | cons a l => exact ⟨a, l, rfl⟩
    have hT0 : tr0.length = T := hT tr0 (List.mem_cons_self tr0 rest)
    subst hT0
    simp only [calc_value_function_estimate]
    rw [List.get?_map, hm, Option.map_some']
    congr 1
    rw [if_pos (by simp), List.length_map, List.length_cons]
    congr 1
    refine congrArg List.sum (List.map_congr_left fun tr htr => ?_)
    rw [← hT tr htr]
    exact zipWith_discount_sum (fun s => pdf s m (2 / 22)) tr
      (fun t => discount ^ t)
  · intro hn
    have hcast : (1 : ℚ) ≤ (n_basis : ℚ) - 1 := by
      have : (2 : ℚ) ≤ (n_basis : ℚ) := by exact_mod_cast hn
      linarith
    have hne1 : ((n_basis : ℚ) - 1) ≠ 0 := by linarith
    have hget : ∀ j, j < n_basis → (linspace (-1) 1 n_basis).get? j =
        some (-1 + (1 - (-1)) * (j : ℚ) / ((n_basis : ℚ) - 1)) := by
      intro j hj
      rw [linspace, if_neg (by omega), List.get?_map, List.get?_range hj,
        Option.map_some']
    refine ⟨?_, ?_, ?_⟩
    · rw [hget 0 (by omega)]
      norm_num
    · rw [hget (n_basis - 1) (by omega)]
      congr 1
      have hc : ((n_basis - 1 : ℕ) : ℚ) = (n_basis : ℚ) - 1 := by
        push_cast [Nat.cast_sub (by omega : 1 ≤ n_basis)]
        ring
      rw [hc, mul_div_assoc, div_self hne1]
      ring
    · intro j x y hx hy
      have hj1 : j + 1 < n_basis := by
        obtain ⟨h, _⟩ := List.get?_eq_some.mp hy
        rwa [linspace_length] at h
      rw [hget j (by omega)] at hx
      rw [hget (j + 1) hj1] at hy
      injection hx with hx
      injection hy with hy
      subst hx
      subst hy
      push_cast
      field_simp
      ring

/-- Witness for C3 at a concrete batch: two trajectories of length 2,
constant density 1, discount 1/2, a single basis mean. -/
theorem calc_value_components_witness :
    (calc_value_function_estimate (fun _ _ _ => 1) [[0, 0], [0, 0]]
        (1 / 2) 1).get? 0 =
      some (((([[0, 0], [0, 0]] : List (List ℚ)).map fun tr =>
          ((List.range 2).map fun t =>
            (1 / 2 : ℚ) ^ t *
              (fun _ _ _ => (1 : ℚ)) (tr.getD t 0) (-1) (2 / 22)).sum).sum) /
        (([[0, 0], [0, 0]] : List (List ℚ)).length : ℚ)) :=
  (calc_value_components (fun _ _ _ => 1) [[0, 0], [0, 0]] (1 / 2) 1 2
    (by simp) (by simp)).1 0 (-1) rfl

/-- Claim C7 counterexample: with `trajectory_length = 0` the generator does not
return trajectories of 0 states — the Python loop `range(-1)` is empty and
the initial state is always stored, so the single returned trajectory has
one state. -/
theorem monte_carlo_sim_zero_length_cex :
    ¬ ∀ traj ∈ monte_carlo_sim pi_star (fun _ => 0) (fun _ _ => 0) 1 0,
        traj.length = 0 := by
  intro h
  have hmem : [(0 : ℚ)] ∈ monte_carlo_sim pi_star (fun _ => 0) (fun _ _ => 0) 1 0 := by
    show [(0 : ℚ)] ∈ [[(0 : ℚ)]]
    exact List.mem_singleton.mpr rfl
  simpa using h [(0 : ℚ)] hmem

/-- Claim C7 (amended with `1 ≤ trajectory_length`): the generator returns
exactly `n_trajectories` trajectories; each has exactly
`trajectory_length` states, starts at the uniform [-1, 1] draw `init k`,
and every subsequent state is the simulator step applied to the previous
state. -/
theorem monte_carlo_sim_shape (policy : ℚ → ℚ) (init : ℕ → ℚ)
    (nf : ℕ → ℕ → ℚ) (n_trajectories trajectory_length : ℕ)
    (hlen : 1 ≤ trajectory_length) :
    (monte_carlo_sim policy init nf n_trajectories trajectory_length).length =
      n_trajectories ∧
    ∀ k traj,
      (monte_carlo_sim policy init nf n_trajectories trajectory_length).get? k =
        some traj →
      traj.length = trajectory_length ∧
      traj.get? 0 = some (init k) ∧
      ∀ t, t + 1 < trajectory_length →
        traj.get? (t + 1) = some (step (traj.getD t 0) policy (nf k t)) := by
  constructor
  · rw [monte_carlo_sim, List.length_map, List.length_range]
  · intro k traj htraj
    rw [monte_carlo_sim, List.get?_map] at htraj
    have hk : k < n_trajectories := by
      by_contra hk
      rw [List.get?_eq_none.mpr (by simpa using Nat.le_of_not_lt hk)] at htraj
      exact absurd htraj (by simp)
    rw [List.get?_range hk] at htraj
    injection htraj with htraj
    subst htraj
    refine ⟨?_, trajFrom_get_zero policy (nf k) _ _ _, fun t ht => ?_⟩
    · rw [trajFrom_length]
      omega
    · have := trajFrom_get_succ policy (nf k) (trajectory_length - 1) t 0
        (init k) (by omega)
      simpa using this

/-- Witness for C7: one trajectory of length 2 from initial state 0 under
the expert policy with zero noise has exactly one trajectory in the
batch. -/
theorem monte_carlo_sim_shape_witness :
    (monte_carlo_sim pi_star (fun _ => 0) (fun _ _ => 0) 1 2).length = 1 :=
  (monte_carlo_sim_shape pi_star (fun _ => 0) (fun _ _ => 0) 1 2
    (by norm_num)).1

/-- Claim C10: `solve_lp_for_alphas` never consults its first parameter: any two
values of `value_pi_star` give identical results on the same value
history (the expert estimate is read from the last list element). -/
theorem solve_lp_ignores_first_arg (lp : List ℚ → Option (List ℚ))
    (v1 v2 : List ℚ) (vs : List (List ℚ)) :
    solve_lp_for_alphas lp v1 vs = solve_lp_for_alphas lp v2 vs := rfl

end LPIRL
